import Mathlib

/-!
Verification of the dhcpd-pools pool-computation engine against its
natural-language specification.

The development shallowly embeds the C sources:
  * `src/src/sort.c`      — comparators, `field_selector`, `merge`,
    `mergesort_ranges` (merge sort with insertion sort below size 8);
  * `src/src/analyze.c`   — `do_counting`, the range/lease reconciliation;
  * `other.c`             — `cidr_last_v4`, `cidr_last_v6`,
    `get_range_size_v4`, `get_range_size_v6`, `flip_ranges`.

Modelling conventions:
  * C `double` counters and sizes are embedded as `ℚ` (exact arithmetic);
    every counter mutation in the embedded code is an increment by 1 or an
    exact sum, so the rational model matches the C values whenever they
    stay below the 2^53 exact-integer range of IEEE doubles.
  * the run-time address family dispatch (function pointers `ipcomp`,
    `get_range_size`) is embedded by parameterising definitions over an
    address type `A`, a comparison `ipc : A → A → Int` and a size function
    `grs : range_t A → ℚ`; the concrete v4/v6 instances are `ipcomp_v4`,
    `ipcomp_v6`, `get_range_size_v4`, `get_range_size_v6`.
  * the uthash doubly linked, address sorted lease list with its cursor
    (`l`, `l->hh.prev`, `l->hh.next` in `do_counting`) is embedded as a
    list zipper `(before, after)`: the cursor points at `after.head`,
    `before` holds the already passed leases in reverse order, and the
    `NULL` cursor states (past either end) both reset to the list head,
    exactly as `do_counting` does.
-/

namespace DhcpdPools

/-- Lease state tags, from `enum ltype` in dhcpd-pools.h. -/
inductive ltype : Type
  | ACTIVE
  | FREE
  | BACKUP
deriving DecidableEq, Repr

/-- One lease record (`struct leases_t`): the ip key and the state tag.
The optional hardware address is not used by any embedded routine. -/
structure lease_t (A : Type) where
  ip : A
  type : ltype
deriving DecidableEq, Repr

/-- Counters of a shared network (`struct shared_network_t`).  The embedded
routines reach networks through the per-range back pointer, embedded here
as an index into the state's network list (index 0 is the distinguished
`shared_net_root`, the "All networks" entry created first). -/
structure shared_network_t where
  name : String
  available : ℚ
  used : ℚ
  touched : ℚ
  backups : ℚ
deriving DecidableEq, Repr, Inhabited

/-- One address range (`struct range_t`): back reference to the owning
shared network (as an index), the interval bounds and the counters. -/
structure range_t (A : Type) where
  shared_net : Nat
  first_ip : A
  last_ip : A
  count : ℚ
  touched : ℚ
  backups : ℚ
deriving DecidableEq, Repr

/-- The `ipcomp_v4` comparator from sort.c: three way comparison of the
32-bit address values. -/
def ipcomp_v4 (a b : Nat) : Int :=
  if a < b then -1 else if b < a then 1 else 0

/-- Byte-wise `memcmp` over equally long byte arrays, the core of
`ipcomp_v6` (sign of the first differing byte). -/
def memcmp_bytes : List Nat → List Nat → Int
  | [], [] => 0
  | _, [] => 0
  | [], _ => 0
  | a :: as_, b :: bs =>
    if a < b then -1 else if b < a then 1 else memcmp_bytes as_ bs

/-- The `ipcomp_v6` comparator from sort.c: `memcmp` of the 16 byte
arrays in network (big-endian) order. -/
def ipcomp_v6 (a b : List Nat) : Int := memcmp_bytes a b

/-- The `comp_double` helper from sort.c. -/
def comp_double (f1 f2 : ℚ) : Int :=
  if f1 < f2 then -1 else if f2 < f1 then 1 else 0

/-- The `get_range_size_v4` function from other.c:
`r->last_ip.v4 - r->first_ip.v4 + 1` computed in a double. -/
def get_range_size_v4 (r : range_t Nat) : ℚ :=
  (r.last_ip : ℚ) - (r.first_ip : ℚ) + 1

/-- The accumulation loop of `get_range_size_v6`: for each byte position,
`size *= 256; size += (int)last[i] - (int)first[i]` in a double
accumulator.  The pair list is `first.zip last`. -/
def v6_size_loop : List (Nat × Nat) → ℚ → ℚ
  | [], size => size
  | p :: rest, size => v6_size_loop rest (size * 256 + ((p.2 : ℤ) - (p.1 : ℤ) : ℤ))

/-- The `get_range_size_v6` function from other.c, on the byte arrays of
the two bounds. -/
def get_range_size_v6 (r : range_t (List Nat)) : ℚ :=
  v6_size_loop (r.first_ip.zip r.last_ip) 0 + 1

/-- Numeric value of a big-endian byte array. -/
def v6val (l : List Nat) : Nat := l.foldl (fun a b => a * 256 + b) 0

/-- The `cidr_last_v4` function from other.c: `netmask` is
`(1U << (32 - mask)) - 1` when the mask is nonzero and `0` otherwise, and
the result is `addr | netmask`. -/
def cidr_last_v4 (addr : Nat) (mask : Nat) : Nat :=
  let netmask : Nat := if mask ≠ 0 then (1 <<< (32 - mask)) - 1 else 0
  addr ||| netmask

/-- The bitmask built by the loop of `cidr_last_v6`: starting from
`i = mask`, each byte is `0xff` while `8 <= i`, a partial byte
`(unsigned char)(0xff << (8 - i))` for `0 < i < 8`, and `0` (from the
initial `memset`) afterwards.  The second argument counts the bytes left
to produce (16 at top level). -/
def v6_bitmask : Nat → Nat → List Nat
  | _, 0 => []
  | i, n + 1 =>
    if i = 0 then 0 :: v6_bitmask 0 n
    else if 8 ≤ i then 255 :: v6_bitmask (i - 8) n
    else ((255 <<< (8 - i)) % 256) :: v6_bitmask 0 n

/-- The `cidr_last_v6` function from other.c:
`addr->v6[i] |= ~bitmask.v6[i]` for each of the 16 bytes; on a byte
`b ≤ 255` the truncated complement `~b` is `255 - b`. -/
def cidr_last_v6 (addr : List Nat) (mask : Nat) : List Nat :=
  (addr.zip (v6_bitmask mask 16)).map (fun p => p.1 ||| (255 - p.2))

/-- The result the specification describes for the IPv4 CIDR-to-last
operation: the base with all bits after the first `mask` bits set to 1. -/
def spec_cidr_last_v4 (addr : Nat) (mask : Nat) : Nat :=
  addr ||| (2 ^ (32 - mask) - 1)

/-- Byte `j` (big-endian) of the 128-bit constant with the trailing `t`
bits set to 1. -/
def trailing_byte (t j : Nat) : Nat :=
  2 ^ (min 8 (t - 8 * (15 - j))) - 1

/-- The result the specification describes for the IPv6 CIDR-to-last
operation: each byte of the base ORed with the matching byte of the
all-trailing-bits constant for `128 - mask` trailing bits. -/
def spec_cidr_last_v6 (addr : List Nat) (mask : Nat) : List Nat :=
  (List.range 16).map (fun j => addr.getD j 0 ||| trailing_byte (128 - mask) j)

/-- The comparator selected by each recognised sort key of
`field_selector` in sort.c.  `comp_ip` compares first addresses via
`ipcomp`, the others compare derived `double` metrics via `comp_double`;
their semantics is given by `apply_comparer` below. -/
inductive comparer_t : Type
  | comp_ip
  | comp_max
  | comp_cur
  | comp_percent
  | comp_touched
  | comp_tc
  | comp_tcperc
deriving DecidableEq, Repr

/-- Result of `field_selector`: either a selected comparator —
`selected none` embeds the `NULL` returned for key `n`, the marker for
the special shared-network-name string sort in `merge` — or the fatal
`error(EXIT_FAILURE, ...)` call on an unknown key. -/
inductive selector_t : Type
  | selected : Option comparer_t → selector_t
  | fatal_error : selector_t
deriving DecidableEq, Repr

/-- The `field_selector` switch from sort.c. -/
def field_selector (c : Char) : selector_t :=
  if c = 'n' then .selected none
  else if c = 'i' then .selected (some .comp_ip)
  else if c = 'm' then .selected (some .comp_max)
  else if c = 'c' then .selected (some .comp_cur)
  else if c = 'p' then .selected (some .comp_percent)
  else if c = 't' then .selected (some .comp_touched)
  else if c = 'T' then .selected (some .comp_tc)
  else if c = 'e' then .selected (some .comp_tcperc)
  else .fatal_error

/-- The `strcmp` used by `merge` for the name sort, as a three way
comparison of the two name strings. -/
def strcmp (a b : String) : Int :=
  match compare a b with
  | .lt => -1
  | .eq => 0
  | .gt => 1

section Engine

variable {A : Type} (ipc : A → A → Int) (grs : range_t A → ℚ)

/-- The `ret_percent` metric from sort.c: `r.count / get_range_size(&r)`. -/
def ret_percent (r : range_t A) : ℚ := r.count / grs r

/-- The `ret_tc` metric from sort.c: `r.count + r.touched`. -/
def ret_tc (r : range_t A) : ℚ := r.count + r.touched

/-- The `ret_tcperc` metric from sort.c: `ret_tc(r) / get_range_size(&r)`. -/
def ret_tcperc (r : range_t A) : ℚ := ret_tc r / grs r

/-- Semantics of the range comparators of sort.c (`comp_ip`, `comp_max`,
`comp_cur`, `comp_percent`, `comp_touched`, `comp_tc`, `comp_tcperc`),
with the active `ipcomp` and `get_range_size` passed in as `ipc` and
`grs`, mirroring the family dispatched function pointers. -/
def apply_comparer : comparer_t → range_t A → range_t A → Int
  | .comp_ip, r1, r2 => ipc r1.first_ip r2.first_ip
  | .comp_max, r1, r2 => comp_double (grs r1) (grs r2)
  | .comp_cur, r1, r2 => comp_double r1.count r2.count
  | .comp_percent, r1, r2 => comp_double (ret_percent grs r1) (ret_percent grs r2)
  | .comp_touched, r1, r2 => comp_double r1.touched r2.touched
  | .comp_tc, r1, r2 => comp_double (ret_tc r1) (ret_tc r2)
  | .comp_tcperc, r1, r2 => comp_double (ret_tcperc grs r1) (ret_tcperc grs r2)

/-- The `merge` comparison of sort.c: walk the sort chain
(`state->sorts`, here a list of `Option comparer_t` where `none` is the
`NULL` marker for the shared-network-name string sort); on the first
comparator with positive result return 0 (false), on the first negative
result return 1 (true); if every comparator ties, return 0 (false). -/
def merge (nets : List shared_network_t) :
    List (Option comparer_t) → range_t A → range_t A → Bool
  | [], _, _ => false
  | p :: rest, left, right =>
    let ret : Int :=
      match p with
      | none =>
          strcmp (nets.getD left.shared_net default).name
            (nets.getD right.shared_net default).name
      | some f => apply_comparer ipc grs f left right
    if 0 < ret then false
    else if ret < 0 then true
    else merge nets rest left right

/-- The inner loop of the insertion sort branch of `mergesort_ranges`:
`hold` is scanned leftwards through the already sorted prefix, shifting
elements right while `merge(orig + s_right, &hold)` is false, and is
placed right after the first element for which it is true.  The prefix is
carried in reverse order (head = rightmost element), matching the
right-to-left scan. -/
def insert_hold (nets : List shared_network_t) (sorts : List (Option comparer_t))
    (hold : range_t A) : List (range_t A) → List (range_t A)
  | [] => [hold]
  | e :: rest =>
    if merge ipc grs nets sorts e hold then hold :: e :: rest
    else e :: insert_hold nets sorts hold rest

/-- The insertion sort branch of `mergesort_ranges` (`size < 8`): fold the
input through `insert_hold`, carrying the sorted prefix in reverse order,
and restore left-to-right order at the end. -/
def insertion_sort (nets : List shared_network_t) (sorts : List (Option comparer_t))
    (acc : List (range_t A)) : List (range_t A) → List (range_t A)
  | [] => acc.reverse
  | x :: xs => insertion_sort nets sorts (insert_hold ipc grs nets sorts x acc) xs

/-- The merge phase of `mergesort_ranges`: while both runs are nonempty
take the left head when `merge(left, right)` is true, the right head
otherwise (ties included), then append the leftover run. -/
def merge_lists (nets : List shared_network_t) (sorts : List (Option comparer_t)) :
    List (range_t A) → List (range_t A) → List (range_t A)
  | [], right => right
  | left, [] => left
  | a :: ls, b :: rs =>
    if merge ipc grs nets sorts a b then a :: merge_lists nets sorts ls (b :: rs)
    else b :: merge_lists nets sorts (a :: ls) rs
  termination_by l r => l.length + r.length

/-- The `mergesort_ranges` routine of sort.c: below `MIN_MERGE_SIZE = 8`
elements it runs the in-place insertion sort, otherwise it sorts the two
halves (`size / 2` and the rest) recursively and merges them. -/
def mergesort_ranges (nets : List shared_network_t) (sorts : List (Option comparer_t))
    (orig : List (range_t A)) : List (range_t A) :=
  if orig.length < 8 then insertion_sort ipc grs nets sorts [] orig
  else
    merge_lists ipc grs nets sorts
      (mergesort_ranges nets sorts (orig.take (orig.length / 2)))
      (mergesort_ranges nets sorts (orig.drop (orig.length / 2)))
  termination_by orig.length
  decreasing_by
    · simp only [List.length_take]
      omega
    · simp only [List.length_drop]
      omega

/-- The `flip_ranges` routine of other.c: it fills a temporary array with
`tmp[j] = orig[num_ranges - 1 - j]` and copies it back, i.e. it reverses
the range array. -/
def flip_ranges (ranges : List (range_t A)) : List (range_t A) :=
  ranges.reverse

/-- Runtime state relevant to reconciliation (`struct conf_t`): the range
array, the lease list in the order produced by `HASH_SORT` and the shared
network list whose index 0 is `shared_net_root`. -/
structure conf_t (A : Type) where
  ranges : List (range_t A)
  leases : List (lease_t A)
  nets : List shared_network_t
deriving Repr

/-- Outcome of the forward scan of one range in `do_counting`: the three
counter increments and the advanced cursor zipper. -/
structure scan_t (A : Type) where
  dcount : Nat
  dtouched : Nat
  dbackups : Nat
  before : List (lease_t A)
  after : List (lease_t A)
deriving Repr

/-- The rewind loop of `do_counting`:
`while (l != NULL && ipcomp(&range_p->first_ip, &l->ip) < 0) l = l->hh.prev;
 if (l == NULL) l = state->leases;`
on the cursor zipper: step the cursor back over `before` while the current
lease address exceeds `first_ip`; if the cursor is `NULL` (past either
end), reset it to the list head. -/
def rewind_cursor (first : A) :
    List (lease_t A) → List (lease_t A) → List (lease_t A) × List (lease_t A)
  | before, [] => ([], before.reverse)
  | before, l :: rest =>
    if ipc first l.ip < 0 then
      match before with
      | [] => ([], l :: rest)
      | p :: before' => rewind_cursor first before' (p :: l :: rest)
    else (before, l :: rest)

/-- The forward scan of one range in `do_counting`: advance the cursor
while the lease address is at most `last_ip`; a lease address strictly
below `first_ip` is skipped, otherwise the lease is classified by state
(`FREE` → touched, `ACTIVE` → count, `BACKUP` → backups). -/
def scan_forward (first last : A) :
    List (lease_t A) → List (lease_t A) → scan_t A
  | before, [] => ⟨0, 0, 0, before, []⟩
  | before, l :: rest =>
    if ipc l.ip last ≤ 0 then
      let s := scan_forward first last (l :: before) rest
      if ipc l.ip first < 0 then s
      else
        match l.type with
        | .ACTIVE => { s with dcount := s.dcount + 1 }
        | .FREE => { s with dtouched := s.dtouched + 1 }
        | .BACKUP => { s with dbackups := s.dbackups + 1 }
    else ⟨0, 0, 0, before, l :: rest⟩

/-- Add a block size and the three counters of a finished range to a
shared network's totals, as the accumulation statements of `do_counting`
do. -/
def net_add (n : shared_network_t) (bs c t b : ℚ) : shared_network_t :=
  { n with
    available := n.available + bs
    used := n.used + c
    touched := n.touched + t
    backups := n.backups + b }

/-- One iteration of the range loop of `do_counting`: rewind the cursor,
scan the range, update the range's counters, add the block size and the
range's (total) counters to its shared network, and — when that network
is not `shared_net_root` (index 0) — to the root totals as well. -/
def process_range (nets : List shared_network_t)
    (before after : List (lease_t A)) (r : range_t A) :
    range_t A × List shared_network_t × List (lease_t A) × List (lease_t A) :=
  let z := rewind_cursor ipc r.first_ip before after
  let s := scan_forward ipc r.first_ip r.last_ip z.1 z.2
  let r' := { r with
    count := r.count + s.dcount
    touched := r.touched + s.dtouched
    backups := r.backups + s.dbackups }
  let bs := grs r'
  let nets1 := nets.set r.shared_net
    (net_add (nets.getD r.shared_net default) bs r'.count r'.touched r'.backups)
  let nets2 :=
    if r.shared_net ≠ 0 then
      nets1.set 0 (net_add (nets1.getD 0 default) bs r'.count r'.touched r'.backups)
    else nets1
  (r', nets2, s.before, s.after)

/-- The range loop of `do_counting`, threading the network totals and the
lease cursor through the ranges in array order. -/
def do_counting_aux (nets : List shared_network_t)
    (before after : List (lease_t A)) :
    List (range_t A) → List (range_t A) × List shared_network_t
  | [] => ([], nets)
  | r :: rest =>
    let st := process_range ipc grs nets before after r
    let tail := do_counting_aux st.2.1 st.2.2.1 st.2.2.2 rest
    (st.1 :: tail.1, tail.2)

/-- The `do_counting` routine of analyze.c, starting with the cursor at
the head of the (address sorted) lease list. -/
def do_counting (s : conf_t A) : conf_t A :=
  let res := do_counting_aux ipc grs s.nets [] s.leases s.ranges
  { s with ranges := res.1, nets := res.2 }

end Engine

/-- Modelled from the spec: the lease index implementation (hash.c with
`add_lease` / `find_lease`, plus the overwrite path of getdata.c) is not
among the provided source files — only its declarations and callers are.
Per the spec, `insert_or_update(address, state)` is insert-or-overwrite
keyed by address (last write wins, at most one live record per address,
no error on duplicate). -/
def insert_or_update (leases : List (lease_t Nat)) (addr : Nat) (t : ltype) :
    List (lease_t Nat) :=
  if leases.any (fun l => l.ip = addr) then
    leases.map (fun l => if l.ip = addr then { l with type := t } else l)
  else leases ++ [{ ip := addr, type := t }]

/-- Modelled from the spec: `find(address)` is exact-key lookup in the
lease index, returning the (unique) live record for the address or
absent. -/
def find_lease (leases : List (lease_t Nat)) (addr : Nat) : Option (lease_t Nat) :=
  leases.find? (fun l => l.ip = addr)

/-- Number of leases of state `t` whose address lies in `[first, last]` —
the reference count the reconciliation claims are stated against. -/
def range_lease_count {A : Type} [LinearOrder A] (leases : List (lease_t A))
    (first last : A) (t : ltype) : Nat :=
  (leases.filter (fun l => decide (first ≤ l.ip ∧ l.ip ≤ last ∧ l.type = t))).length

/-! ## Theorems -/

/-- C7: every character outside the recognised sort keys `n i m c p t T e`
makes `field_selector` report the fatal configuration error (no silent
no-op), and each recognised key yields its documented comparator, with
`n` selecting the `NULL` marker that designates the shared-network-name
comparison. -/
theorem field_selector_fatal_on_unknown_key :
    (∀ c : Char, c ∉ (['n', 'i', 'm', 'c', 'p', 't', 'T', 'e'] : List Char) →
      field_selector c = .fatal_error) ∧
    field_selector 'n' = .selected none ∧
    field_selector 'i' = .selected (some .comp_ip) ∧
    field_selector 'm' = .selected (some .comp_max) ∧
    field_selector 'c' = .selected (some .comp_cur) ∧
    field_selector 'p' = .selected (some .comp_percent) ∧
    field_selector 't' = .selected (some .comp_touched) ∧
    field_selector 'T' = .selected (some .comp_tc) ∧
    field_selector 'e' = .selected (some .comp_tcperc) := by
  refine ⟨?_, rfl, rfl, rfl, rfl, rfl, rfl, rfl, rfl⟩
  intro c hc
  unfold field_selector
  split_ifs with h1 h2 h3 h4 h5 h6 h7 h8 <;> simp_all

/-- Witness for C7 at the concrete unknown key `x` and known key `i`. -/
theorem field_selector_fatal_on_unknown_key_witness :
    field_selector 'x' = .fatal_error ∧
    field_selector 'i' = .selected (some .comp_ip) :=
  ⟨field_selector_fatal_on_unknown_key.1 'x' (by decide),
   field_selector_fatal_on_unknown_key.2.2.1⟩

/-- Counterexample for C5: for IPv4 mask length 0, `cidr_last_v4` leaves
the base address unchanged (its `else` branch sets the netmask to 0)
instead of producing the all-ones address the claim describes. -/
theorem cidr_last_v4_mask_zero_counterexample :
    cidr_last_v4 0 0 = 0 ∧ spec_cidr_last_v4 0 0 = 4294967295 ∧
    cidr_last_v4 0 0 ≠ spec_cidr_last_v4 0 0 := by decide

/-- Every byte of `v6_bitmask` complemented equals the corresponding byte
of the constant with `128 - mask` trailing one bits, for every mask up to
128. -/
theorem v6_bitmask_complement :
    ∀ m < 129, (v6_bitmask m 16).map (fun b => 255 - b)
      = (List.range 16).map (trailing_byte (128 - m)) := by decide

/-- The bitmask loop always produces the requested number of bytes. -/
theorem v6_bitmask_length (i n : Nat) : (v6_bitmask i n).length = n := by
  induction n generalizing i with
  | zero => rfl
  | succ n ih =>
      unfold v6_bitmask
      split_ifs <;> simp [ih]

/-- C5 (amended): for IPv4 masks 1..32 and for IPv6 masks 0..128 the
CIDR-to-last-address operation returns the base with all bits after the
first `mask` bits set to 1; for the IPv4 mask 0 it returns the base
address unchanged, not the all-ones address. -/
theorem cidr_last_matches_spec (addr4 : Nat) (m4 : Nat) (h1 : 1 ≤ m4) (h2 : m4 ≤ 32)
    (addr6 : List Nat) (h6 : addr6.length = 16) (m6 : Nat) (hm6 : m6 ≤ 128) :
    cidr_last_v4 addr4 m4 = spec_cidr_last_v4 addr4 m4 ∧
    cidr_last_v4 addr4 0 = addr4 ∧
    cidr_last_v6 addr6 m6 = spec_cidr_last_v6 addr6 m6 := by
  refine ⟨?_, ?_, ?_⟩
  · have hm : m4 ≠ 0 := by omega
    simp [cidr_last_v4, spec_cidr_last_v4, hm, Nat.one_shiftLeft]
  · simp [cidr_last_v4]
  · have hbm := v6_bitmask_complement m6 (by omega)
    have hlen : (v6_bitmask m6 16).length = 16 := v6_bitmask_length m6 16
    apply List.ext_get
    · simp [cidr_last_v6, spec_cidr_last_v6, hlen, h6]
    · intro i hi1 hi2
      have hi : i < 16 := by
        simpa [cidr_last_v6, hlen, h6] using hi1
      have hbmi : i < (v6_bitmask m6 16).length := by
        rw [hlen]
        exact hi
      have hmap := congrArg (fun l => l[i]?) hbm
      simp only [List.getElem?_map] at hmap
      rw [List.getElem?_eq_getElem hbmi,
        List.getElem?_eq_getElem (by simpa using hi)] at hmap
      simp only [List.getElem_range, Option.map_some', Option.some.injEq] at hmap
      simp only [cidr_last_v6, spec_cidr_last_v6, List.get_eq_getElem,
        List.getElem_map, List.getElem_zip, List.getElem_range]
      rw [List.getD_eq_getElem addr6 0 (by omega), hmap]

/-- Witness for C5's amended theorem at a concrete IPv4 /24 base and the
IPv6 mask 1. -/
theorem cidr_last_matches_spec_witness :
    cidr_last_v4 3232235520 24 = spec_cidr_last_v4 3232235520 24 ∧
    cidr_last_v4 3232235520 0 = 3232235520 ∧
    cidr_last_v6 (List.replicate 16 0) 1 = spec_cidr_last_v6 (List.replicate 16 0) 1 :=
  cidr_last_matches_spec 3232235520 24 (by decide) (by decide)
    (List.replicate 16 0) (by decide) 1 (by decide)

/-- Folding bytes onto an arbitrary accumulator. -/
theorem v6val_foldl_acc (l : List Nat) :
    ∀ a : Nat, l.foldl (fun x b => x * 256 + b) a = a * 256 ^ l.length + v6val l := by
  induction l with
  | nil => intro a; simp [v6val]
  | cons b bs ih =>
      intro a
      have hb : v6val (b :: bs) = b * 256 ^ bs.length + v6val bs := by
        simp only [v6val, List.foldl_cons, Nat.zero_mul, Nat.zero_add]
        exact ih b
      simp only [List.foldl_cons]
      rw [ih (a * 256 + b), hb]
      simp [pow_succ]
      ring

/-- Value of a byte array with its leading byte split off. -/
theorem v6val_cons (b : Nat) (bs : List Nat) :
    v6val (b :: bs) = b * 256 ^ bs.length + v6val bs := by
  simp only [v6val, List.foldl_cons, Nat.zero_mul, Nat.zero_add]
  exact v6val_foldl_acc bs b

/-- A byte array of bounded bytes has value below `256 ^ length`. -/
theorem v6val_lt (l : List Nat) (hb : ∀ b ∈ l, b < 256) : v6val l < 256 ^ l.length := by
  induction l with
  | nil => simp [v6val]
  | cons b bs ih =>
      have hb1 : b < 256 := hb b (by simp)
      have hrec : v6val bs < 256 ^ bs.length := ih (fun x hx => hb x (by simp [hx]))
      rw [v6val_cons]
      calc b * 256 ^ bs.length + v6val bs
          < b * 256 ^ bs.length + 256 ^ bs.length := by omega
        _ = (b + 1) * 256 ^ bs.length := by ring
        _ ≤ 256 * 256 ^ bs.length := by
            exact Nat.mul_le_mul_right _ (by omega)
        _ = 256 ^ (b :: bs).length := by
            simp [pow_succ]
            ring

/-- The accumulation loop of `get_range_size_v6` computes, over any
accumulator, the difference of the two byte array values. -/
theorem v6_size_loop_eq (f : List Nat) :
    ∀ (l : List Nat), f.length = l.length → ∀ s : ℚ,
      v6_size_loop (f.zip l) s
        = s * 256 ^ f.length + ((v6val l : ℚ) - (v6val f : ℚ)) := by
  induction f with
  | nil =>
      intro l h s
      have : l = [] := by
        cases l
        · rfl
        · simp at h
      subst this
      simp [v6_size_loop, v6val]
  | cons a as ih =>
      intro l h s
      cases l with
      | nil => simp at h
      | cons b bs =>
          have hlen : as.length = bs.length := by simpa using h
          rw [List.zip_cons_cons]
          rw [show v6_size_loop ((a, b) :: as.zip bs) s
              = v6_size_loop (as.zip bs) (s * 256 + ((b : ℤ) - (a : ℤ) : ℤ)) from rfl]
          rw [ih bs hlen]
          rw [v6val_cons, v6val_cons]
          push_cast
          rw [hlen]
          simp only [List.length_cons, pow_succ, hlen]
          ring

/-- A byte-wise `memcmp` result that is not positive means the big-endian
values compare the same way. -/
theorem memcmp_le_val_le (f : List Nat) :
    ∀ (l : List Nat), f.length = l.length →
      (∀ b ∈ f, b < 256) → (∀ b ∈ l, b < 256) →
      memcmp_bytes f l ≤ 0 → v6val f ≤ v6val l := by
  induction f with
  | nil =>
      intro l h _ _ _
      have : l = [] := by
        cases l
        · rfl
        · simp at h
      subst this
      exact le_refl _
  | cons a as ih =>
      intro l h hfb hlb hc
      cases l with
      | nil => simp at h
      | cons b bs =>
          have hlen : as.length = bs.length := by simpa using h
          simp only [memcmp_bytes] at hc
          split_ifs at hc with h1 h2
          · -- a < b: strictly smaller leading byte dominates
            have hlt : v6val as < 256 ^ as.length :=
              v6val_lt as (fun x hx => hfb x (by simp [hx]))
            rw [v6val_cons, v6val_cons, hlen]
            have hm : (a + 1) * 256 ^ bs.length ≤ b * 256 ^ bs.length :=
              Nat.mul_le_mul_right _ (by omega)
            have hlt' : v6val as < 256 ^ bs.length := by
              rw [← hlen]
              exact hlt
            nlinarith [Nat.zero_le (v6val bs)]
          · -- b < a: memcmp is 1, contradicting the hypothesis
            omega
          · -- equal leading byte: recurse
            have hab : a = b := by omega
            subst hab
            have := ih bs hlen (fun x hx => hfb x (by simp [hx]))
              (fun x hx => hlb x (by simp [hx])) hc
            rw [v6val_cons, v6val_cons, hlen]
            omega

/-- C9: for every IPv6 range whose first bound is byte-wise at most its
last bound, `get_range_size_v6` is strictly positive (no wraparound to
zero or negative), exactly equals `v6val last - v6val first + 1` in the
rational model of the double accumulator, and is monotone in both range
bounds. -/
theorem get_range_size_v6_pos_exact_mono (r : range_t (List Nat))
    (f2 l2 : List Nat)
    (hf : r.first_ip.length = 16) (hl : r.last_ip.length = 16)
    (hf2 : f2.length = 16) (hl2 : l2.length = 16)
    (hfb : ∀ b ∈ r.first_ip, b < 256) (hlb : ∀ b ∈ r.last_ip, b < 256)
    (hf2b : ∀ b ∈ f2, b < 256) (hl2b : ∀ b ∈ l2, b < 256)
    (hle : ipcomp_v6 r.first_ip r.last_ip ≤ 0)
    (hlow : ipcomp_v6 f2 r.first_ip ≤ 0)
    (hhigh : ipcomp_v6 r.last_ip l2 ≤ 0) :
    0 < get_range_size_v6 r ∧
    get_range_size_v6 r = (v6val r.last_ip : ℚ) - (v6val r.first_ip : ℚ) + 1 ∧
    get_range_size_v6 r ≤ get_range_size_v6 { r with last_ip := l2 } ∧
    get_range_size_v6 r ≤ get_range_size_v6 { r with first_ip := f2 } := by
  have hform : ∀ (f l : List Nat), f.length = 16 → l.length = 16 →
      get_range_size_v6 ⟨r.shared_net, f, l, r.count, r.touched, r.backups⟩
        = (v6val l : ℚ) - (v6val f : ℚ) + 1 := by
    intro f l hfl hll
    unfold get_range_size_v6
    simp only
    rw [v6_size_loop_eq f l (by omega) 0]
    ring
  have hr : get_range_size_v6 r = (v6val r.last_ip : ℚ) - (v6val r.first_ip : ℚ) + 1 := by
    have := hform r.first_ip r.last_ip hf hl
    simpa using this
  have hvle : v6val r.first_ip ≤ v6val r.last_ip :=
    memcmp_le_val_le r.first_ip r.last_ip (by omega) hfb hlb hle
  have hvlow : v6val f2 ≤ v6val r.first_ip :=
    memcmp_le_val_le f2 r.first_ip (by omega) hf2b hfb hlow
  have hvhigh : v6val r.last_ip ≤ v6val l2 :=
    memcmp_le_val_le r.last_ip l2 (by omega) hlb hl2b hhigh
  refine ⟨?_, hr, ?_, ?_⟩
  · rw [hr]
    have : (v6val r.first_ip : ℚ) ≤ (v6val r.last_ip : ℚ) := by exact_mod_cast hvle
    linarith
  · have h2 : get_range_size_v6 { r with last_ip := l2 }
        = (v6val l2 : ℚ) - (v6val r.first_ip : ℚ) + 1 := by
      have := hform r.first_ip l2 hf hl2
      simpa using this
    rw [hr, h2]
    have : (v6val r.last_ip : ℚ) ≤ (v6val l2 : ℚ) := by exact_mod_cast hvhigh
    linarith
  · have h2 : get_range_size_v6 { r with first_ip := f2 }
        = (v6val r.last_ip : ℚ) - (v6val f2 : ℚ) + 1 := by
      have := hform f2 r.last_ip hf2 hl
      simpa using this
    rw [hr, h2]
    have : (v6val f2 : ℚ) ≤ (v6val r.first_ip : ℚ) := by exact_mod_cast hvlow
    linarith

/-- Witness for C9 at the range `::/1` (first `::`, last
`7fff:ffff:ffff:ffff:ffff:ffff:ffff:ffff`): the reported size is exactly
`2 ^ 127` and strictly positive. -/
theorem get_range_size_v6_pos_exact_mono_witness :
    0 < get_range_size_v6 ⟨0, List.replicate 16 0, 127 :: List.replicate 15 255, 0, 0, 0⟩ ∧
    get_range_size_v6 ⟨0, List.replicate 16 0, 127 :: List.replicate 15 255, 0, 0, 0⟩
      = 2 ^ 127 := by
  have h := get_range_size_v6_pos_exact_mono
    ⟨0, List.replicate 16 0, 127 :: List.replicate 15 255, 0, 0, 0⟩
    (List.replicate 16 0) (List.replicate 16 255)
    (by decide) (by decide) (by decide) (by decide)
    (by decide) (by decide) (by decide) (by decide)
    (by decide) (by decide) (by decide)
  refine ⟨h.1, ?_⟩
  rw [h.2.1]
  norm_num [v6val, List.replicate, List.foldl]

/-- After one `insert_or_update` on an index holding at most one record
for the address, the records for that address are exactly the single
freshly written one. -/
theorem insert_or_update_filter (leases : List (lease_t Nat)) (addr : Nat) (t : ltype)
    (h : (leases.filter (fun l => l.ip = addr)).length ≤ 1) :
    (insert_or_update leases addr t).filter (fun l => decide (l.ip = addr))
      = [{ ip := addr, type := t }] := by
  unfold insert_or_update
  split_ifs with hany
  · -- overwrite path: each record keyed by the address has its state replaced
    have key : ∀ (L : List (lease_t Nat)),
        (L.map (fun l => if l.ip = addr then { l with type := t } else l)).filter
            (fun l => decide (l.ip = addr))
          = List.replicate (L.filter (fun l => decide (l.ip = addr))).length
              { ip := addr, type := t } := by
      intro L
      induction L with
      | nil => simp
      | cons x xs ih =>
          by_cases hx : x.ip = addr
          · simp [List.filter_cons, hx, ih, List.replicate_succ]
          · simp [List.filter_cons, hx, ih]
    rw [key]
    have hpos : 0 < (leases.filter (fun l => decide (l.ip = addr))).length := by
      rcases List.any_eq_true.mp hany with ⟨x, hx, hxa⟩
      have hmem : x ∈ leases.filter (fun l => decide (l.ip = addr)) :=
        List.mem_filter.mpr ⟨hx, hxa⟩
      exact List.length_pos_of_mem hmem
    have hone : (leases.filter (fun l => decide (l.ip = addr))).length = 1 := by omega
    rw [hone]
    rfl
  · -- append path: no record for the address existed
    have hany' : ∀ x ∈ leases, ¬x.ip = addr := by
      intro x hx hxa
      exact hany (List.any_eq_true.mpr ⟨x, hx, by simpa using hxa⟩)
    have hnone : leases.filter (fun l => decide (l.ip = addr)) = [] :=
      List.filter_eq_nil_iff.mpr (fun x hx => by simpa using hany' x hx)
    rw [List.filter_append, hnone]
    simp

/-- A singleton filter pins down `find?`. -/
theorem find?_of_filter_singleton (p : lease_t Nat → Bool) (x : lease_t Nat) :
    ∀ L : List (lease_t Nat), L.filter p = [x] → L.find? p = some x := by
  intro L
  induction L with
  | nil => simp
  | cons y ys ih =>
      intro hf
      by_cases hy : p y
      · rw [List.filter_cons_of_pos hy] at hf
        have hyx : y = x := List.head_eq_of_cons_eq hf
        rw [List.find?_cons_of_pos _ hy, hyx]
      · rw [List.filter_cons_of_neg (by simpa using hy)] at hf
        rw [List.find?_cons_of_neg _ (by simpa using hy)]
        exact ih hf

/-- C6: lease index insertion is last-write-wins — after inserting state
`s1` then state `s2` for the same address into a well formed index (at
most one live record per address), lookup returns the single record with
state `s2`, and exactly one record for that address exists. -/
theorem insert_or_update_last_write_wins (leases : List (lease_t Nat))
    (addr : Nat) (s1 s2 : ltype)
    (h : (leases.filter (fun l => l.ip = addr)).length ≤ 1) :
    find_lease (insert_or_update (insert_or_update leases addr s1) addr s2) addr
      = some { ip := addr, type := s2 } ∧
    ((insert_or_update (insert_or_update leases addr s1) addr s2).filter
      (fun l => l.ip = addr)).length = 1 := by
  have h1 := insert_or_update_filter leases addr s1 h
  have h1len : ((insert_or_update leases addr s1).filter
      (fun l => l.ip = addr)).length ≤ 1 := by
    rw [h1]
    simp
  have h2 := insert_or_update_filter (insert_or_update leases addr s1) addr s2 h1len
  constructor
  · exact find?_of_filter_singleton _ _ _ h2
  · rw [h2]
    rfl

/-- Witness for C6 on the empty index, address 5, states free then
active — the spec's own example. -/
theorem insert_or_update_last_write_wins_witness :
    find_lease (insert_or_update (insert_or_update [] 5 .FREE) 5 .ACTIVE) 5
      = some { ip := 5, type := .ACTIVE } ∧
    ((insert_or_update (insert_or_update [] 5 .FREE) 5 .ACTIVE).filter
      (fun l => l.ip = 5)).length = 1 :=
  insert_or_update_last_write_wins [] 5 .FREE .ACTIVE (by decide)

/-- C1 (code bug, evaluated at the failing input): two ranges with equal
first addresses — which compare equal under the whole chain `[comp_ip]` —
come out of `mergesort_ranges` in reversed relative order: the insertion
sort shifts the earlier element past the equal later one because `merge`
returns 0 on ties, so the sort is not stable, contradicting both the spec
and the code's own doc comment on `field_selector` ("The sort algorithms
are stabile"). -/
theorem mergesort_ranges_swaps_tied_ranges :
    mergesort_ranges ipcomp_v4 get_range_size_v4 [⟨"All networks", 0, 0, 0, 0⟩]
      [some .comp_ip]
      [⟨0, 10, 15, 0, 0, 0⟩, ⟨0, 10, 20, 0, 0, 0⟩]
      = [⟨0, 10, 20, 0, 0, 0⟩, ⟨0, 10, 15, 0, 0, 0⟩] := by
  rw [mergesort_ranges.eq_def]
  decide

section EngineProofs

variable {A : Type} (ipc : A → A → Int) (grs : range_t A → ℚ)
variable (nets : List shared_network_t) (sorts : List (Option comparer_t))

/-- `insert_hold` only repositions the held element inside the prefix. -/
theorem insert_hold_perm (hold : range_t A) (acc : List (range_t A)) :
    (insert_hold ipc grs nets sorts hold acc).Perm (hold :: acc) := by
  induction acc with
  | nil => simp [insert_hold]
  | cons e rest ih =>
      unfold insert_hold
      split_ifs with h
      · exact List.Perm.refl _
      · exact (ih.cons e).trans (List.Perm.swap hold e rest)

/-- The insertion sort branch permutes `acc.reverse ++ l`. -/
theorem insertion_sort_perm :
    ∀ (l acc : List (range_t A)),
      (insertion_sort ipc grs nets sorts acc l).Perm (acc.reverse ++ l) := by
  intro l
  induction l with
  | nil =>
      intro acc
      simp [insertion_sort]
  | cons x xs ih =>
      intro acc
      unfold insertion_sort
      have h1 := ih (insert_hold ipc grs nets sorts x acc)
      have h2 : (insert_hold ipc grs nets sorts x acc).reverse.Perm (x :: acc) :=
        (List.reverse_perm _).trans (insert_hold_perm ipc grs nets sorts x acc)
      have h3 := h2.append_right xs
      have h5 := ((List.reverse_perm acc).symm.append_right xs).cons x
      exact ((h1.trans h3).trans h5).trans List.perm_middle.symm

/-- The merge phase permutes the concatenation of the two runs. -/
theorem merge_lists_perm :
    ∀ l r : List (range_t A),
      (merge_lists ipc grs nets sorts l r).Perm (l ++ r) := by
  intro l
  induction l with
  | nil =>
      intro r
      simp [merge_lists]
  | cons a ls ihl =>
      intro r
      induction r with
      | nil => simp [merge_lists]
      | cons b rs ihr =>
          simp only [merge_lists]
          split_ifs with h
          · exact (ihl (b :: rs)).cons a
          · exact (ihr.cons b).trans List.perm_middle.symm

/-- C10: `mergesort_ranges` only rearranges the range array — for every
comparator chain the output is a permutation of the input (no element is
lost, duplicated or modified). -/
theorem mergesort_ranges_perm (orig : List (range_t A)) :
    (mergesort_ranges ipc grs nets sorts orig).Perm orig := by
  have key : ∀ (n : Nat) (l : List (range_t A)), l.length ≤ n →
      (mergesort_ranges ipc grs nets sorts l).Perm l := by
    intro n
    induction n with
    | zero =>
        intro l hl
        have : l = [] := List.length_eq_zero.mp (by omega)
        subst this
        rw [mergesort_ranges.eq_def]
        simp [insertion_sort]
    | succ n ih =>
        intro l hl
        rw [mergesort_ranges.eq_def]
        split_ifs with hsize
        · simpa using insertion_sort_perm ipc grs nets sorts l []
        · have h8 : 8 ≤ l.length := by omega
          have htk : (l.take (l.length / 2)).length ≤ n := by
            simp only [List.length_take]
            omega
          have hdr : (l.drop (l.length / 2)).length ≤ n := by
            simp only [List.length_drop]
            omega
          have p1 := merge_lists_perm ipc grs nets sorts
            (mergesort_ranges ipc grs nets sorts (l.take (l.length / 2)))
            (mergesort_ranges ipc grs nets sorts (l.drop (l.length / 2)))
          have p3 := p1.trans ((ih _ htk).append (ih _ hdr))
          rw [List.take_append_drop] at p3
          exact p3
  exact key orig.length orig le_rfl

/-- `insert_hold` preserves descending-by-`merge` order of the reversed
prefix, given that `merge` is asymmetric and its complement transitive. -/
theorem insert_hold_rev_sorted
    (hasym : ∀ a b : range_t A, merge ipc grs nets sorts a b = true →
      merge ipc grs nets sorts b a = false)
    (htrans : ∀ a b c : range_t A, merge ipc grs nets sorts a b = false →
      merge ipc grs nets sorts b c = false → merge ipc grs nets sorts a c = false)
    (hold : range_t A) (acc : List (range_t A))
    (hs : acc.Pairwise (fun a b => merge ipc grs nets sorts a b = false)) :
    (insert_hold ipc grs nets sorts hold acc).Pairwise
      (fun a b => merge ipc grs nets sorts a b = false) := by
  induction acc with
  | nil => simp [insert_hold]
  | cons e rest ih =>
      rw [List.pairwise_cons] at hs
      obtain ⟨he, hrest⟩ := hs
      unfold insert_hold
      split_ifs with h
      · refine List.Pairwise.cons ?_ (List.Pairwise.cons he hrest)
        intro y hy
        rcases List.mem_cons.mp hy with rfl | hy'
        · exact hasym _ _ h
        · exact htrans hold e y (hasym _ _ h) (he y hy')
      · refine List.Pairwise.cons ?_ (ih hrest)
        intro y hy
        have hmem := (insert_hold_perm ipc grs nets sorts hold rest).mem_iff.mp hy
        rcases List.mem_cons.mp hmem with rfl | hy'
        · simpa using h
        · exact he y hy'

/-- The insertion sort branch produces a list sorted for the `merge`
order (first element least), given asymmetry and complement
transitivity. -/
theorem insertion_sort_sorted
    (hasym : ∀ a b : range_t A, merge ipc grs nets sorts a b = true →
      merge ipc grs nets sorts b a = false)
    (htrans : ∀ a b c : range_t A, merge ipc grs nets sorts a b = false →
      merge ipc grs nets sorts b c = false → merge ipc grs nets sorts a c = false) :
    ∀ (l acc : List (range_t A)),
      acc.Pairwise (fun a b => merge ipc grs nets sorts a b = false) →
      (insertion_sort ipc grs nets sorts acc l).Pairwise
        (fun a b => merge ipc grs nets sorts b a = false) := by
  intro l
  induction l with
  | nil =>
      intro acc hacc
      unfold insertion_sort
      rw [List.pairwise_reverse]
      exact hacc
  | cons x xs ih =>
      intro acc hacc
      unfold insertion_sort
      exact ih _ (insert_hold_rev_sorted ipc grs nets sorts hasym htrans x acc hacc)

/-- The merge phase preserves sortedness for the `merge` order. -/
theorem merge_lists_sorted
    (hasym : ∀ a b : range_t A, merge ipc grs nets sorts a b = true →
      merge ipc grs nets sorts b a = false)
    (htrans : ∀ a b c : range_t A, merge ipc grs nets sorts a b = false →
      merge ipc grs nets sorts b c = false → merge ipc grs nets sorts a c = false) :
    ∀ l r : List (range_t A),
      l.Pairwise (fun a b => merge ipc grs nets sorts b a = false) →
      r.Pairwise (fun a b => merge ipc grs nets sorts b a = false) →
      (merge_lists ipc grs nets sorts l r).Pairwise
        (fun a b => merge ipc grs nets sorts b a = false) := by
  intro l
  induction l with
  | nil =>
      intro r _ hr
      simpa [merge_lists] using hr
  | cons a ls ihl =>
      intro r hl
      induction r with
      | nil =>
          intro _
          simpa [merge_lists] using hl
      | cons b rs ihr =>
          intro hr
          rw [List.pairwise_cons] at hl hr
          obtain ⟨ha, hls⟩ := hl
          obtain ⟨hb, hrs⟩ := hr
          simp only [merge_lists]
          split_ifs with h
          · refine List.Pairwise.cons ?_
              (ihl (b :: rs) hls (List.Pairwise.cons hb hrs))
            intro y hy
            have hmem := (merge_lists_perm ipc grs nets sorts ls (b :: rs)).mem_iff.mp hy
            rcases List.mem_append.mp hmem with hy' | hy'
            · exact ha y hy'
            · rcases List.mem_cons.mp hy' with rfl | hy''
              · exact hasym _ _ h
              · exact htrans y b a (hb y hy'') (hasym _ _ h)
          · have hba : merge ipc grs nets sorts a b = false := by simpa using h
            refine List.Pairwise.cons ?_ ?_
            · intro y hy
              have hmem :=
                (merge_lists_perm ipc grs nets sorts (a :: ls) rs).mem_iff.mp hy
              rcases List.mem_append.mp hmem with hy' | hy'
              · rcases List.mem_cons.mp hy' with rfl | hy''
                · exact hba
                · exact htrans y a b (ha y hy'') hba
              · exact hb y hy'
            · exact ihr hrs

/-- `mergesort_ranges` produces a list sorted for the `merge` order,
given asymmetry and complement transitivity of the chain comparison. -/
theorem mergesort_ranges_sorted
    (hasym : ∀ a b : range_t A, merge ipc grs nets sorts a b = true →
      merge ipc grs nets sorts b a = false)
    (htrans : ∀ a b c : range_t A, merge ipc grs nets sorts a b = false →
      merge ipc grs nets sorts b c = false → merge ipc grs nets sorts a c = false)
    (orig : List (range_t A)) :
    (mergesort_ranges ipc grs nets sorts orig).Pairwise
      (fun a b => merge ipc grs nets sorts b a = false) := by
  have key : ∀ (n : Nat) (l : List (range_t A)), l.length ≤ n →
      (mergesort_ranges ipc grs nets sorts l).Pairwise
        (fun a b => merge ipc grs nets sorts b a = false) := by
    intro n
    induction n with
    | zero =>
        intro l hl
        have : l = [] := List.length_eq_zero.mp (by omega)
        subst this
        rw [mergesort_ranges.eq_def]
        simp [insertion_sort]
    | succ n ih =>
        intro l hl
        rw [mergesort_ranges.eq_def]
        split_ifs with hsize
        · exact insertion_sort_sorted ipc grs nets sorts hasym htrans l [] (by simp)
        · have htk : (l.take (l.length / 2)).length ≤ n := by
            simp only [List.length_take]
            omega
          have hdr : (l.drop (l.length / 2)).length ≤ n := by
            simp only [List.length_drop]
            omega
          exact merge_lists_sorted ipc grs nets sorts hasym htrans _ _
            (ih _ htk) (ih _ hdr)
  exact key orig.length orig le_rfl

end EngineProofs

/-- `ipcomp_v4` is negative exactly on strictly smaller first argument. -/
theorem ipcomp_v4_lt_iff (a b : Nat) : ipcomp_v4 a b < 0 ↔ a < b := by
  unfold ipcomp_v4
  split_ifs with h1 h2 <;> simp <;> omega

/-- `ipcomp_v4` is zero exactly on equal arguments. -/
theorem ipcomp_v4_eq_iff (a b : Nat) : ipcomp_v4 a b = 0 ↔ a = b := by
  unfold ipcomp_v4
  split_ifs with h1 h2 <;> simp <;> omega

/-- Under a lawful address comparison, `merge` on the single-element chain
`[comp_ip]` decides the strict first-address order. -/
theorem merge_comp_ip_iff {A : Type} [LinearOrder A]
    (ipc : A → A → Int) (grs : range_t A → ℚ)
    (hlt : ∀ a b : A, ipc a b < 0 ↔ a < b)
    (heq : ∀ a b : A, ipc a b = 0 ↔ a = b)
    (nets : List shared_network_t) (a b : range_t A) :
    merge ipc grs nets [some .comp_ip] a b = true ↔ a.first_ip < b.first_ip := by
  have hgt : ∀ x y : A, 0 < ipc x y ↔ y < x := by
    intro x y
    constructor
    · intro h
      rcases lt_trichotomy x y with h1 | h1 | h1
      · rw [← hlt x y] at h1
        omega
      · rw [← heq x y] at h1
        omega
      · exact h1
    · intro h
      have h1 : ¬ipc x y < 0 := by
        rw [hlt]
        exact lt_asymm h
      have h2 : ¬ipc x y = 0 := by
        rw [heq]
        exact ne_of_gt h
      omega
  simp only [merge, apply_comparer]
  split_ifs with h1 h2
  · rw [hgt] at h1
    simp only [Bool.false_eq_true, false_iff]
    exact fun hc => absurd hc (lt_asymm h1)
  · rw [hlt] at h2
    simp [h2]
  · rw [hgt] at h1
    rw [hlt] at h2
    have hfe : a.first_ip = b.first_ip := le_antisymm (not_lt.mp h1) (not_lt.mp h2)
    simp [merge, hfe]

/-- C8: after sorting by the `ip` key, applying `flip_ranges` yields the
ranges in descending order of first address, and `flip_ranges` is an
involution. -/
theorem sort_ip_then_flip_descending {A : Type} [LinearOrder A]
    (ipc : A → A → Int) (grs : range_t A → ℚ)
    (hlt : ∀ a b : A, ipc a b < 0 ↔ a < b)
    (heq : ∀ a b : A, ipc a b = 0 ↔ a = b)
    (nets : List shared_network_t) (l : List (range_t A)) :
    (flip_ranges (mergesort_ranges ipc grs nets [some .comp_ip] l)).Pairwise
      (fun r1 r2 => r2.first_ip ≤ r1.first_ip) ∧
    flip_ranges (flip_ranges l) = l := by
  constructor
  · have hiff := merge_comp_ip_iff ipc grs hlt heq nets
    have hasym : ∀ a b : range_t A,
        merge ipc grs nets [some .comp_ip] a b = true →
        merge ipc grs nets [some .comp_ip] b a = false := by
      intro a b h
      rw [hiff] at h
      rw [Bool.eq_false_iff]
      rw [ne_eq, hiff]
      exact lt_asymm h
    have htrans : ∀ a b c : range_t A,
        merge ipc grs nets [some .comp_ip] a b = false →
        merge ipc grs nets [some .comp_ip] b c = false →
        merge ipc grs nets [some .comp_ip] a c = false := by
      intro a b c hab hbc
      rw [Bool.eq_false_iff, ne_eq, hiff] at hab hbc ⊢
      intro hc
      rcases lt_trichotomy a.first_ip b.first_ip with h1 | h1 | h1
      · exact hab h1
      · exact hbc (h1 ▸ hc)
      · exact hbc (h1.trans hc)
    have hsorted := mergesort_ranges_sorted ipc grs nets [some .comp_ip]
      hasym htrans l
    unfold flip_ranges
    rw [List.pairwise_reverse]
    refine hsorted.imp ?_
    intro a b h
    rw [Bool.eq_false_iff, ne_eq, hiff] at h
    exact not_lt.mp h
  · simp [flip_ranges]

/-- Witness for C8 at a concrete three range array over IPv4 addresses. -/
theorem sort_ip_then_flip_descending_witness :
    (flip_ranges (mergesort_ranges ipcomp_v4 get_range_size_v4
        [⟨"All networks", 0, 0, 0, 0⟩] [some .comp_ip]
        [⟨0, 3, 3, 0, 0, 0⟩, ⟨0, 1, 1, 0, 0, 0⟩, ⟨0, 2, 2, 0, 0, 0⟩])).Pairwise
      (fun r1 r2 => r2.first_ip ≤ r1.first_ip) ∧
    flip_ranges (flip_ranges
        [⟨0, 3, 3, 0, 0, 0⟩, ⟨0, 1, 1, 0, 0, 0⟩, ⟨0, 2, 2, 0, 0, 0⟩])
      = [(⟨0, 3, 3, 0, 0, 0⟩ : range_t Nat), ⟨0, 1, 1, 0, 0, 0⟩, ⟨0, 2, 2, 0, 0, 0⟩] :=
  sort_ip_then_flip_descending ipcomp_v4 get_range_size_v4
    ipcomp_v4_lt_iff ipcomp_v4_eq_iff
    [⟨"All networks", 0, 0, 0, 0⟩]
    [⟨0, 3, 3, 0, 0, 0⟩, ⟨0, 1, 1, 0, 0, 0⟩, ⟨0, 2, 2, 0, 0, 0⟩]

section CountingProofs

variable {A : Type} [LinearOrder A] (ipc : A → A → Int) (grs : range_t A → ℚ)

/-- A lawful three way comparison is non-positive exactly on `≤`. -/
theorem ipc_le_iff (hlt : ∀ a b : A, ipc a b < 0 ↔ a < b)
    (heq : ∀ a b : A, ipc a b = 0 ↔ a = b) (a b : A) :
    ipc a b ≤ 0 ↔ a ≤ b := by
  constructor
  · intro h
    rcases lt_or_eq_of_le h with h' | h'
    · exact le_of_lt ((hlt a b).mp h')
    · exact le_of_eq ((heq a b).mp h')
  · intro h
    rcases lt_or_eq_of_le h with h' | h'
    · exact le_of_lt ((hlt a b).mpr h')
    · exact le_of_eq ((heq a b).mpr h')

omit [LinearOrder A] in
/-- The rewind loop never changes the underlying lease list: the result
zipper denotes the same list as the input zipper. -/
theorem rewind_cursor_zipper (first : A) :
    ∀ (before after : List (lease_t A)),
      (rewind_cursor ipc first before after).1.reverse
          ++ (rewind_cursor ipc first before after).2
        = before.reverse ++ after := by
  intro before
  induction before with
  | nil =>
      intro after
      cases after with
      | nil => simp [rewind_cursor]
      | cons l rest =>
          simp only [rewind_cursor]
          split_ifs <;> simp
  | cons p before' ih =>
      intro after
      cases after with
      | nil => simp [rewind_cursor]
      | cons l rest =>
          simp only [rewind_cursor]
          split_ifs with h
          · rw [ih (p :: l :: rest)]
            simp
          · simp

/-- After the rewind loop, every lease left behind the cursor has an
address strictly below the range's first address (given a sorted list):
the loop stops only at a lease whose address is at most `first`, and the
reset cases leave nothing behind the cursor. -/
theorem rewind_cursor_below (hlt : ∀ a b : A, ipc a b < 0 ↔ a < b) (first : A) :
    ∀ (before after : List (lease_t A)),
      (before.reverse ++ after).Pairwise (fun l1 l2 => l1.ip < l2.ip) →
      ∀ x ∈ (rewind_cursor ipc first before after).1, x.ip < first := by
  intro before
  induction before with
  | nil =>
      intro after hs x hx
      cases after with
      | nil => simp [rewind_cursor] at hx
      | cons l rest =>
          simp only [rewind_cursor] at hx
          split_ifs at hx <;> simp at hx
  | cons p before' ih =>
      intro after hs x hx
      cases after with
      | nil => simp [rewind_cursor] at hx
      | cons l rest =>
          simp only [rewind_cursor] at hx
          split_ifs at hx with h
          · refine ih (p :: l :: rest) ?_ x hx
            have hrearr : before'.reverse ++ p :: l :: rest
                = (p :: before').reverse ++ (l :: rest) := by
              simp
            rw [hrearr]
            exact hs
          · have hlf : l.ip ≤ first := by
              by_contra hc
              exact h ((hlt first l.ip).mpr (lt_of_not_le hc))
            have hrel : ∀ y ∈ (p :: before').reverse, y.ip < l.ip := by
              intro y hy
              exact (List.pairwise_append.mp hs).2.2 y hy l (by simp)
            have hx' : x ∈ (p :: before').reverse := List.mem_reverse.mpr hx
            exact lt_of_lt_of_le (hrel x hx') hlf

/-- The forward scan of one range counts, per state, exactly the leases
of the (sorted) remainder whose address lies in `[first, last]`, skips
addresses below `first`, and moves the consumed leases from the cursor's
`after` side to its `before` side without changing the underlying list. -/
theorem scan_forward_spec (hlt : ∀ a b : A, ipc a b < 0 ↔ a < b)
    (heq : ∀ a b : A, ipc a b = 0 ↔ a = b) (first last : A) :
    ∀ (after before : List (lease_t A)),
      after.Pairwise (fun l1 l2 => l1.ip < l2.ip) →
      (scan_forward ipc first last before after).dcount
          = range_lease_count after first last .ACTIVE ∧
      (scan_forward ipc first last before after).dtouched
          = range_lease_count after first last .FREE ∧
      (scan_forward ipc first last before after).dbackups
          = range_lease_count after first last .BACKUP ∧
      (scan_forward ipc first last before after).before.reverse
          ++ (scan_forward ipc first last before after).after
        = before.reverse ++ after := by
  intro after
  induction after with
  | nil =>
      intro before hp
      simp [scan_forward, range_lease_count]
  | cons l rest ih =>
      intro before hp
      rw [List.pairwise_cons] at hp
      obtain ⟨hl, hrest⟩ := hp
      obtain ⟨ha, hf, hb, hz⟩ := ih (l :: before) hrest
      have hzip : (scan_forward ipc first last (l :: before) rest).before.reverse
          ++ (scan_forward ipc first last (l :: before) rest).after
          = before.reverse ++ l :: rest := by
        rw [hz]
        simp
      simp only [scan_forward]
      split_ifs with h1 h2
      · -- within last bound but strictly below first: skipped
        have hlf : l.ip < first := (hlt _ _).mp h2
        have hskip : ∀ t, range_lease_count (l :: rest) first last t
            = range_lease_count rest first last t := by
          intro t
          unfold range_lease_count
          rw [List.filter_cons_of_neg]
          simp only [decide_eq_true_eq]
          rintro ⟨hge, -, -⟩
          exact absurd hge (not_le.mpr hlf)
        exact ⟨by rw [ha, hskip], by rw [hf, hskip], by rw [hb, hskip], hzip⟩
      · -- in range: classified by state
        have hfl : first ≤ l.ip := by
          by_contra hc
          exact h2 ((hlt l.ip first).mpr (lt_of_not_le hc))
        have hll : l.ip ≤ last := (ipc_le_iff ipc hlt heq l.ip last).mp h1
        have hkeep : ∀ t, l.type = t → range_lease_count (l :: rest) first last t
            = range_lease_count rest first last t + 1 := by
          intro t ht
          unfold range_lease_count
          rw [List.filter_cons_of_pos]
          · simp
          · simp [hfl, hll, ht]
        have hdrop : ∀ t, l.type ≠ t → range_lease_count (l :: rest) first last t
            = range_lease_count rest first last t := by
          intro t ht
          unfold range_lease_count
          rw [List.filter_cons_of_neg]
          simp only [decide_eq_true_eq]
          rintro ⟨-, -, hc⟩
          exact ht hc
        cases htype : l.type
        · exact ⟨by simp [ha, hkeep _ htype],
            by simp [hf, hdrop .FREE (by simp [htype])],
            by simp [hb, hdrop .BACKUP (by simp [htype])], hzip⟩
        · exact ⟨by simp [ha, hdrop .ACTIVE (by simp [htype])],
            by simp [hf, hkeep _ htype],
            by simp [hb, hdrop .BACKUP (by simp [htype])], hzip⟩
        · exact ⟨by simp [ha, hdrop .ACTIVE (by simp [htype])],
            by simp [hf, hdrop .FREE (by simp [htype])],
            by simp [hb, hkeep _ htype], hzip⟩
      · -- past the range's last address: the scan stops, nothing is counted
        have hstop : last < l.ip := by
          by_contra hc
          exact h1 ((ipc_le_iff ipc hlt heq l.ip last).mpr (not_lt.mp hc))
        have hnil : ∀ t, range_lease_count (l :: rest) first last t = 0 := by
          intro t
          unfold range_lease_count
          have hfe : (l :: rest).filter
              (fun x => decide (first ≤ x.ip ∧ x.ip ≤ last ∧ x.type = t)) = [] := by
            apply List.filter_eq_nil_iff.mpr
            intro x hx
            simp only [decide_eq_true_eq]
            rintro ⟨-, hxle, -⟩
            rcases List.mem_cons.mp hx with rfl | hx'
            · exact absurd hxle (not_le.mpr hstop)
            · exact absurd hxle (not_le.mpr (hstop.trans (hl x hx')))
          rw [hfe]
          rfl
        exact ⟨by simp [hnil], by simp [hnil], by simp [hnil], by simp⟩

/-- Leases strictly below the range's first address contribute to no
per-range counter. -/
theorem range_lease_count_append_below (first last : A) (t : ltype)
    (b1 a1 : List (lease_t A)) (hb : ∀ x ∈ b1, x.ip < first) :
    range_lease_count (b1.reverse ++ a1) first last t
      = range_lease_count a1 first last t := by
  unfold range_lease_count
  rw [List.filter_append]
  have hnil : b1.reverse.filter
      (fun l => decide (first ≤ l.ip ∧ l.ip ≤ last ∧ l.type = t)) = [] := by
    apply List.filter_eq_nil_iff.mpr
    intro x hx
    simp only [decide_eq_true_eq]
    rintro ⟨hge, -, -⟩
    exact absurd hge (not_le.mpr (hb x (List.mem_reverse.mp hx)))
  rw [hnil]
  simp

/-- One iteration of the `do_counting` range loop adds to the range's
counters exactly the number of leases of each state inside
`[first_ip, last_ip]` of the whole (sorted) lease list, counted once
each, and leaves the underlying lease list of the cursor zipper
unchanged. -/
theorem process_range_spec (hlt : ∀ a b : A, ipc a b < 0 ↔ a < b)
    (heq : ∀ a b : A, ipc a b = 0 ↔ a = b)
    (r : range_t A) (nets : List shared_network_t)
    (before after : List (lease_t A))
    (hs : (before.reverse ++ after).Pairwise (fun l1 l2 => l1.ip < l2.ip)) :
    (process_range ipc grs nets before after r).1
      = { r with
          count := r.count + range_lease_count (before.reverse ++ after)
            r.first_ip r.last_ip .ACTIVE
          touched := r.touched + range_lease_count (before.reverse ++ after)
            r.first_ip r.last_ip .FREE
          backups := r.backups + range_lease_count (before.reverse ++ after)
            r.first_ip r.last_ip .BACKUP } ∧
    (process_range ipc grs nets before after r).2.2.1.reverse
        ++ (process_range ipc grs nets before after r).2.2.2
      = before.reverse ++ after := by
  have hz1 := rewind_cursor_zipper ipc r.first_ip before after
  have hz2 := rewind_cursor_below ipc hlt r.first_ip before after hs
  have hsz : ((rewind_cursor ipc r.first_ip before after).1.reverse
      ++ (rewind_cursor ipc r.first_ip before after).2).Pairwise
        (fun l1 l2 => l1.ip < l2.ip) := by
    rw [hz1]
    exact hs
  have hpz2 : (rewind_cursor ipc r.first_ip before after).2.Pairwise
      (fun l1 l2 => l1.ip < l2.ip) := (List.pairwise_append.mp hsz).2.1
  obtain ⟨ha, hf, hb, hzz⟩ := scan_forward_spec ipc hlt heq r.first_ip r.last_ip
    (rewind_cursor ipc r.first_ip before after).2
    (rewind_cursor ipc r.first_ip before after).1 hpz2
  have hcount : ∀ t, range_lease_count (before.reverse ++ after)
      r.first_ip r.last_ip t
      = range_lease_count (rewind_cursor ipc r.first_ip before after).2
        r.first_ip r.last_ip t := by
    intro t
    rw [← hz1]
    exact range_lease_count_append_below _ _ t _ _ hz2
  constructor
  · simp only [process_range]
    rw [ha, hf, hb, hcount .ACTIVE, hcount .FREE, hcount .BACKUP]
  · simp only [process_range]
    rw [hzz, hz1]

/-- The range loop of `do_counting` enriches every range with its exact
per-state lease counts over the full lease list, independent of the
cursor position handed along between ranges. -/
theorem do_counting_aux_ranges_spec (hlt : ∀ a b : A, ipc a b < 0 ↔ a < b)
    (heq : ∀ a b : A, ipc a b = 0 ↔ a = b) :
    ∀ (ranges : List (range_t A)) (nets : List shared_network_t)
      (before after : List (lease_t A)),
      (before.reverse ++ after).Pairwise (fun l1 l2 => l1.ip < l2.ip) →
      (do_counting_aux ipc grs nets before after ranges).1
        = ranges.map (fun r => { r with
            count := r.count + range_lease_count (before.reverse ++ after)
              r.first_ip r.last_ip .ACTIVE
            touched := r.touched + range_lease_count (before.reverse ++ after)
              r.first_ip r.last_ip .FREE
            backups := r.backups + range_lease_count (before.reverse ++ after)
              r.first_ip r.last_ip .BACKUP }) := by
  intro ranges
  induction ranges with
  | nil =>
      intro nets before after hs
      simp [do_counting_aux]
  | cons r rest ih =>
      intro nets before after hs
      obtain ⟨hr, hzip⟩ := process_range_spec ipc grs hlt heq r nets before after hs
      have hs' : ((process_range ipc grs nets before after r).2.2.1.reverse
          ++ (process_range ipc grs nets before after r).2.2.2).Pairwise
            (fun l1 l2 => l1.ip < l2.ip) := by
        rw [hzip]
        exact hs
      have htail := ih (process_range ipc grs nets before after r).2.1
        (process_range ipc grs nets before after r).2.2.1
        (process_range ipc grs nets before after r).2.2.2 hs'
      simp only [hzip] at htail
      simp only [do_counting_aux, List.map_cons]
      rw [hr, htail]

/-- The reconciliation enriches every range with its exact per-state
lease counts over the full lease list (shared helper). -/
theorem do_counting_ranges_eq_map (hlt : ∀ a b : A, ipc a b < 0 ↔ a < b)
    (heq : ∀ a b : A, ipc a b = 0 ↔ a = b) (s : conf_t A)
    (hs : s.leases.Pairwise (fun l1 l2 => l1.ip < l2.ip)) :
    (do_counting ipc grs s).ranges
      = s.ranges.map (fun r => { r with
          count := r.count + range_lease_count s.leases r.first_ip r.last_ip .ACTIVE
          touched := r.touched + range_lease_count s.leases r.first_ip r.last_ip .FREE
          backups := r.backups
            + range_lease_count s.leases r.first_ip r.last_ip .BACKUP }) := by
  have h := do_counting_aux_ranges_spec ipc grs hlt heq s.ranges s.nets [] s.leases
    (by simpa using hs)
  simp only [List.reverse_nil, List.nil_append] at h
  simpa [do_counting] using h

/-- C2: for every range array and every address-sorted (duplicate free)
lease list, `do_counting` adds to each range's counters exactly the
number of leases whose address lies in `[first_ip, last_ip]`, each
counted once and classified by state — a FREE lease into touched, an
ACTIVE lease into count, a BACKUP lease into backups — while a lease
below the range's first address is skipped and contributes to no
counter. -/
theorem do_counting_counts_exactly (hlt : ∀ a b : A, ipc a b < 0 ↔ a < b)
    (heq : ∀ a b : A, ipc a b = 0 ↔ a = b) (s : conf_t A)
    (hs : s.leases.Pairwise (fun l1 l2 => l1.ip < l2.ip)) :
    (do_counting ipc grs s).ranges
      = s.ranges.map (fun r => { r with
          count := r.count + range_lease_count s.leases r.first_ip r.last_ip .ACTIVE
          touched := r.touched + range_lease_count s.leases r.first_ip r.last_ip .FREE
          backups := r.backups
            + range_lease_count s.leases r.first_ip r.last_ip .BACKUP }) :=
  do_counting_ranges_eq_map ipc grs hlt heq s hs

/-- Witness for C2 at the spec's example: range 10.0.0.0–10.0.0.3 with
leases 10.0.0.1 active and 10.0.0.2 free yields count 1, touched 1,
backups 0. -/
theorem do_counting_counts_exactly_witness :
    (do_counting ipcomp_v4 get_range_size_v4
        ⟨[⟨1, 167772160, 167772163, 0, 0, 0⟩],
         [⟨167772161, .ACTIVE⟩, ⟨167772162, .FREE⟩],
         [⟨"All networks", 0, 0, 0, 0⟩, ⟨"net1", 0, 0, 0, 0⟩]⟩).ranges
      = [⟨1, 167772160, 167772163, 1, 1, 0⟩] := by
  rw [do_counting_counts_exactly ipcomp_v4 get_range_size_v4
    ipcomp_v4_lt_iff ipcomp_v4_eq_iff
    ⟨[⟨1, 167772160, 167772163, 0, 0, 0⟩],
     [⟨167772161, .ACTIVE⟩, ⟨167772162, .FREE⟩],
     [⟨"All networks", 0, 0, 0, 0⟩, ⟨"net1", 0, 0, 0, 0⟩]⟩
    (by decide)]
  simp [range_lease_count]

end CountingProofs

/-- The three per-state counts of a range partition the count of all
leases inside the range. -/
theorem range_lease_count_partition (L : List (lease_t Nat)) (first last : Nat) :
    range_lease_count L first last .ACTIVE + range_lease_count L first last .FREE
      + range_lease_count L first last .BACKUP
      = (L.filter (fun l => decide (first ≤ l.ip ∧ l.ip ≤ last))).length := by
  induction L with
  | nil => rfl
  | cons l rest ih =>
      unfold range_lease_count at ih ⊢
      by_cases hin : first ≤ l.ip ∧ l.ip ≤ last
      · obtain ⟨h1, h2⟩ := hin
        cases htype : l.type
        · rw [List.filter_cons_of_pos (by simp [h1, h2, htype]),
            List.filter_cons_of_neg (by simp [htype]),
            List.filter_cons_of_neg (by simp [htype]),
            List.filter_cons_of_pos (by simp [h1, h2])]
          simp only [List.length_cons]
          omega
        · rw [List.filter_cons_of_neg (by simp [htype]),
            List.filter_cons_of_pos (by simp [h1, h2, htype]),
            List.filter_cons_of_neg (by simp [htype]),
            List.filter_cons_of_pos (by simp [h1, h2])]
          simp only [List.length_cons]
          omega
        · rw [List.filter_cons_of_neg (by simp [htype]),
            List.filter_cons_of_neg (by simp [htype]),
            List.filter_cons_of_pos (by simp [h1, h2, htype]),
            List.filter_cons_of_pos (by simp [h1, h2])]
          simp only [List.length_cons]
          omega
      · rw [List.filter_cons_of_neg (by
            simp only [decide_eq_true_eq]
            rintro ⟨ha, hb, -⟩
            exact hin ⟨ha, hb⟩),
          List.filter_cons_of_neg (by
            simp only [decide_eq_true_eq]
            rintro ⟨ha, hb, -⟩
            exact hin ⟨ha, hb⟩),
          List.filter_cons_of_neg (by
            simp only [decide_eq_true_eq]
            rintro ⟨ha, hb, -⟩
            exact hin ⟨ha, hb⟩),
          List.filter_cons_of_neg (by
            simp only [decide_eq_true_eq]
            exact hin)]
        exact ih

/-- A strictly address-increasing lease list confined to `[first, last]`
has at most `last - first + 1` elements. -/
theorem bounded_strict_length :
    ∀ (L : List (lease_t Nat)) (first last : Nat),
      L.Pairwise (fun l1 l2 => l1.ip < l2.ip) →
      (∀ x ∈ L, first ≤ x.ip ∧ x.ip ≤ last) →
      L.length ≤ last + 1 - first := by
  intro L
  induction L with
  | nil =>
      intro first last _ _
      simp
  | cons l rest ih =>
      intro first last hp hb
      rw [List.pairwise_cons] at hp
      obtain ⟨hl, hrest⟩ := hp
      obtain ⟨h1, h2⟩ := hb l (by simp)
      have hrec := ih (l.ip + 1) last hrest
        (fun x hx => ⟨hl x hx, (hb x (by simp [hx])).2⟩)
      simp only [List.length_cons]
      omega

/-- With unique addresses, at most `last - first + 1` leases lie inside
a range. -/
theorem filter_in_range_le (L : List (lease_t Nat)) (first last : Nat)
    (hp : L.Pairwise (fun l1 l2 => l1.ip < l2.ip)) :
    (L.filter (fun l => decide (first ≤ l.ip ∧ l.ip ≤ last))).length
      ≤ last + 1 - first := by
  apply bounded_strict_length _ first last (hp.filter _)
  intro x hx
  have hm := List.mem_filter.mp hx
  simpa using hm.2

/-- C4: for ranges with zeroed counters, `first ≤ last`, and a strictly
address-sorted lease list (the at-most-one-lease-per-address index
invariant), `do_counting` never overcounts: the sum
`count + touched + backups` of each resulting range is at most the
range's size `get_range_size_v4`. -/
theorem do_counting_no_overcount (s : conf_t Nat)
    (hs : s.leases.Pairwise (fun l1 l2 => l1.ip < l2.ip))
    (hzero : ∀ r ∈ s.ranges, r.count = 0 ∧ r.touched = 0 ∧ r.backups = 0)
    (hfl : ∀ r ∈ s.ranges, r.first_ip ≤ r.last_ip) :
    ∀ r' ∈ (do_counting ipcomp_v4 get_range_size_v4 s).ranges,
      r'.count + r'.touched + r'.backups ≤ get_range_size_v4 r' := by
  intro r' hr'
  rw [do_counting_ranges_eq_map ipcomp_v4 get_range_size_v4
    ipcomp_v4_lt_iff ipcomp_v4_eq_iff s hs] at hr'
  obtain ⟨r, hr, rfl⟩ := List.mem_map.mp hr'
  obtain ⟨hc0, ht0, hb0⟩ := hzero r hr
  have hfl' := hfl r hr
  have hN : range_lease_count s.leases r.first_ip r.last_ip .ACTIVE
      + range_lease_count s.leases r.first_ip r.last_ip .FREE
      + range_lease_count s.leases r.first_ip r.last_ip .BACKUP
      ≤ r.last_ip + 1 - r.first_ip := by
    rw [range_lease_count_partition]
    exact filter_in_range_le s.leases r.first_ip r.last_ip hs
  simp only [hc0, ht0, hb0, zero_add, get_range_size_v4]
  have hcast : ((range_lease_count s.leases r.first_ip r.last_ip .ACTIVE
      + range_lease_count s.leases r.first_ip r.last_ip .FREE
      + range_lease_count s.leases r.first_ip r.last_ip .BACKUP : Nat) : ℚ)
      ≤ ((r.last_ip + 1 - r.first_ip : Nat) : ℚ) := by
    exact_mod_cast hN
  rw [Nat.cast_sub (hfl'.trans (Nat.le_succ r.last_ip))] at hcast
  push_cast at hcast
  linarith

/-- Witness for C4 at the spec's example state: the resulting range has
count 1, touched 1, backups 0, and 1 + 1 + 0 is at most the size 4. -/
theorem do_counting_no_overcount_witness :
    (⟨1, 167772160, 167772163, 1, 1, 0⟩ : range_t Nat).count
      + (⟨1, 167772160, 167772163, 1, 1, 0⟩ : range_t Nat).touched
      + (⟨1, 167772160, 167772163, 1, 1, 0⟩ : range_t Nat).backups
      ≤ get_range_size_v4 ⟨1, 167772160, 167772163, 1, 1, 0⟩ :=
  do_counting_no_overcount
    ⟨[⟨1, 167772160, 167772163, 0, 0, 0⟩],
     [⟨167772161, .ACTIVE⟩, ⟨167772162, .FREE⟩],
     [⟨"All networks", 0, 0, 0, 0⟩, ⟨"net1", 0, 0, 0, 0⟩]⟩
    (by decide)
    (by
      intro r hr
      simp only [List.mem_singleton] at hr
      subst hr
      refine ⟨rfl, rfl, rfl⟩)
    (by
      intro r hr
      simp only [List.mem_singleton] at hr
      subst hr
      decide)
    ⟨1, 167772160, 167772163, 1, 1, 0⟩
    (by
      rw [do_counting_ranges_eq_map ipcomp_v4 get_range_size_v4
        ipcomp_v4_lt_iff ipcomp_v4_eq_iff _ (by decide)]
      simp [range_lease_count])

section RootTotals

variable {A : Type} (ipc : A → A → Int) (grs : range_t A → ℚ)

/-- Summing a projection over a list with one element replaced. -/
theorem sum_map_set (f : shared_network_t → ℚ) :
    ∀ (l : List shared_network_t) (k : Nat) (v : shared_network_t), k < l.length →
      ((l.set k v).map f).sum = (l.map f).sum + f v - f (l.getD k default) := by
  intro l
  induction l with
  | nil =>
      intro k v h
      simp at h
  | cons x xs ih =>
      intro k v hk
      cases k with
      | zero =>
          simp only [List.set, List.map_cons, List.sum_cons, List.getD_cons_zero]
          ring
      | succ k =>
          simp only [List.set, List.map_cons, List.sum_cons, List.getD_cons_succ]
          rw [ih k v (by simpa using hk)]
          ring

/-- Replacing an element does not change other positions' `getD`. -/
theorem getD_set_ne (l : List shared_network_t) :
    ∀ (j k : Nat) (v : shared_network_t), j ≠ k →
      (l.set j v).getD k default = l.getD k default := by
  induction l with
  | nil =>
      intro j k v _
      simp [List.set]
  | cons x xs ih =>
      intro j k v hjk
      cases j with
      | zero =>
          cases k with
          | zero => exact absurd rfl hjk
          | succ k => simp [List.set]
      | succ j =>
          cases k with
          | zero => simp [List.set]
          | succ k =>
              simp only [List.set, List.getD_cons_succ]
              exact ih j k v (by omega)

/-- `getD` at a replaced position yields the new element. -/
theorem getD_set_self (l : List shared_network_t) :
    ∀ (j : Nat) (v : shared_network_t), j < l.length →
      (l.set j v).getD j default = v := by
  induction l with
  | nil =>
      intro j v h
      simp at h
  | cons x xs ih =>
      intro j v hj
      cases j with
      | zero => simp [List.set]
      | succ j =>
          simp only [List.set, List.getD_cons_succ]
          exact ih j v (by simpa using hj)

/-- Replacing the head leaves the tail unchanged. -/
theorem drop_one_set_zero (l : List shared_network_t) (v : shared_network_t) :
    (l.set 0 v).drop 1 = l.drop 1 := by
  cases l <;> rfl

/-- Replacing a non-head element commutes with dropping the head. -/
theorem drop_one_set_pos (l : List shared_network_t) (k : Nat)
    (v : shared_network_t) (hk : k ≠ 0) :
    (l.set k v).drop 1 = (l.drop 1).set (k - 1) v := by
  cases l with
  | nil => simp
  | cons x xs =>
      cases k with
      | zero => exact absurd rfl hk
      | succ k => simp [List.set]

/-- `getD` into the tail is `getD` at the successor index. -/
theorem getD_drop_one (l : List shared_network_t) :
    ∀ j : Nat, (l.drop 1).getD j default = l.getD (j + 1) default := by
  cases l <;> intro j <;> simp [List.getD_cons_succ]

/-- One `do_counting` iteration on a range attached to a non-root network
adds the same quantity to the root totals and to the owning network's
totals, for every additive projection of the network record. -/
theorem process_range_nets_delta (f : shared_network_t → ℚ)
    (g : ℚ → ℚ → ℚ → ℚ → ℚ)
    (hf : ∀ (n : shared_network_t) (bs c t b : ℚ),
      f (net_add n bs c t b) = f n + g bs c t b)
    (r : range_t A) (nets : List shared_network_t)
    (before after : List (lease_t A))
    (hj0 : r.shared_net ≠ 0) (hjlen : r.shared_net < nets.length) :
    ∃ d : ℚ,
      f ((process_range ipc grs nets before after r).2.1.getD 0 default)
          = f (nets.getD 0 default) + d ∧
      ((((process_range ipc grs nets before after r).2.1).drop 1).map f).sum
          = ((nets.drop 1).map f).sum + d ∧
      (process_range ipc grs nets before after r).2.1.length = nets.length := by
  simp only [process_range, if_pos hj0]
  set s := scan_forward ipc r.first_ip r.last_ip
    (rewind_cursor ipc r.first_ip before after).1
    (rewind_cursor ipc r.first_ip before after).2 with hsdef
  set r' := { r with
    count := r.count + (s.dcount : ℚ)
    touched := r.touched + (s.dtouched : ℚ)
    backups := r.backups + (s.dbackups : ℚ) } with hr'def
  set bs := grs r' with hbsdef
  set v1 := net_add (nets.getD r.shared_net default) bs r'.count r'.touched
    r'.backups with hv1def
  set nets1 := nets.set r.shared_net v1 with hn1def
  set v0 := net_add (nets1.getD 0 default) bs r'.count r'.touched r'.backups
    with hv0def
  refine ⟨g bs r'.count r'.touched r'.backups, ?_, ?_, ?_⟩
  · have hlen1 : 0 < nets1.length := by
      rw [hn1def]
      simp only [List.length_set]
      omega
    rw [getD_set_self nets1 0 v0 hlen1, hv0def, hf]
    rw [hn1def, getD_set_ne nets r.shared_net 0 v1 hj0]
  · rw [drop_one_set_zero nets1 v0, hn1def,
      drop_one_set_pos nets r.shared_net v1 hj0]
    rw [sum_map_set f (nets.drop 1) (r.shared_net - 1) v1 (by
      simp only [List.length_drop]
      omega)]
    rw [hv1def, hf, getD_drop_one nets (r.shared_net - 1)]
    have hsn : r.shared_net - 1 + 1 = r.shared_net := by omega
    rw [hsn]
    ring
  · simp only [hn1def, List.length_set]

/-- Threading the range loop over ranges all attached to non-root
networks changes the root totals and the sum of the non-root totals by
the same amount, for every additive projection. -/
theorem do_counting_aux_root_delta (f : shared_network_t → ℚ)
    (g : ℚ → ℚ → ℚ → ℚ → ℚ)
    (hf : ∀ (n : shared_network_t) (bs c t b : ℚ),
      f (net_add n bs c t b) = f n + g bs c t b) :
    ∀ (ranges : List (range_t A)) (nets : List shared_network_t)
      (before after : List (lease_t A)),
      (∀ r ∈ ranges, r.shared_net ≠ 0 ∧ r.shared_net < nets.length) →
      f ((do_counting_aux ipc grs nets before after ranges).2.getD 0 default)
          - f (nets.getD 0 default)
        = (((do_counting_aux ipc grs nets before after ranges).2.drop 1).map f).sum
          - ((nets.drop 1).map f).sum := by
  intro ranges
  induction ranges with
  | nil =>
      intro nets before after _
      simp [do_counting_aux]
  | cons r rest ih =>
      intro nets before after hr
      obtain ⟨hj0, hjlen⟩ := hr r (by simp)
      obtain ⟨d, hroot, htail, hlen⟩ := process_range_nets_delta ipc grs f g hf
        r nets before after hj0 hjlen
      have hrest : ∀ x ∈ rest, x.shared_net ≠ 0 ∧
          x.shared_net < (process_range ipc grs nets before after r).2.1.length := by
        intro x hx
        rw [hlen]
        exact hr x (by simp [hx])
      have hrec := ih (process_range ipc grs nets before after r).2.1
        (process_range ipc grs nets before after r).2.2.1
        (process_range ipc grs nets before after r).2.2.2 hrest
      simp only [do_counting_aux]
      rw [hroot, htail] at hrec
      linarith [hrec]

end RootTotals

/-- Counterexample for C3: a range attached directly to the root ("All
networks") network — as top level subnets are — makes the root's
`available` total (1 for this one-address range) differ from the sum of
the non-root networks' totals (0, there are none). -/
theorem do_counting_root_not_sum_counterexample :
    ((do_counting ipcomp_v4 get_range_size_v4
        ⟨[⟨0, 0, 0, 0, 0, 0⟩], [], [⟨"All networks", 0, 0, 0, 0⟩]⟩).nets.getD 0
          default).available
      ≠ (((do_counting ipcomp_v4 get_range_size_v4
        ⟨[⟨0, 0, 0, 0, 0, 0⟩], [], [⟨"All networks", 0, 0, 0, 0⟩]⟩).nets.drop 1).map
          (fun n => n.available)).sum := by
  simp [do_counting, do_counting_aux, process_range, rewind_cursor, scan_forward,
    net_add, get_range_size_v4, range_lease_count]

/-- C3 (amended): after `do_counting` on a state whose network totals
start at zero and whose every range is attached to a valid non-root
shared network, the root ("All networks") totals equal the sum of the
non-root networks' totals, for each of available, used, touched and
backups.  (When a range is attached directly to the root network — the
case of a top level subnet — `do_counting` adds its contribution to the
root only once and the equation fails, see the counterexample.) -/
theorem do_counting_root_totals_eq_sum {A : Type} (ipc : A → A → Int)
    (grs : range_t A → ℚ) (s : conf_t A)
    (h0 : 0 < s.nets.length)
    (hattach : ∀ r ∈ s.ranges, r.shared_net ≠ 0 ∧ r.shared_net < s.nets.length)
    (hzero : ∀ n ∈ s.nets, n.available = 0 ∧ n.used = 0 ∧ n.touched = 0 ∧
      n.backups = 0) :
    (((do_counting ipc grs s).nets.getD 0 default).available
        = (((do_counting ipc grs s).nets.drop 1).map (fun n => n.available)).sum) ∧
    (((do_counting ipc grs s).nets.getD 0 default).used
        = (((do_counting ipc grs s).nets.drop 1).map (fun n => n.used)).sum) ∧
    (((do_counting ipc grs s).nets.getD 0 default).touched
        = (((do_counting ipc grs s).nets.drop 1).map (fun n => n.touched)).sum) ∧
    (((do_counting ipc grs s).nets.getD 0 default).backups
        = (((do_counting ipc grs s).nets.drop 1).map (fun n => n.backups)).sum) := by
  have hnets : (do_counting ipc grs s).nets
      = (do_counting_aux ipc grs s.nets [] s.leases s.ranges).2 := by
    simp [do_counting]
  have hroot0 : s.nets.getD 0 default ∈ s.nets := by
    rw [List.getD_eq_getElem s.nets default h0]
    exact List.getElem_mem h0
  have htailzero : ∀ f : shared_network_t → ℚ, (∀ n ∈ s.nets, f n = 0) →
      ((s.nets.drop 1).map f).sum = 0 := by
    intro f hz
    apply List.sum_eq_zero
    intro x hx
    obtain ⟨n, hn, rfl⟩ := List.mem_map.mp hx
    exact hz n (List.mem_of_mem_drop hn)
  have happ : ∀ (f : shared_network_t → ℚ) (g : ℚ → ℚ → ℚ → ℚ → ℚ),
      (∀ (n : shared_network_t) (bs c t b : ℚ),
        f (net_add n bs c t b) = f n + g bs c t b) →
      (∀ n ∈ s.nets, f n = 0) →
      f ((do_counting ipc grs s).nets.getD 0 default)
        = (((do_counting ipc grs s).nets.drop 1).map f).sum := by
    intro f g hfadd hz
    have hd := do_counting_aux_root_delta ipc grs f g hfadd s.ranges s.nets []
      s.leases hattach
    rw [← hnets] at hd
    rw [hz _ hroot0] at hd
    rw [htailzero f hz] at hd
    linarith
  refine ⟨?_, ?_, ?_, ?_⟩
  · exact happ (fun n => n.available) (fun bs _ _ _ => bs)
      (fun n bs c t b => by simp [net_add]) (fun n hn => (hzero n hn).1)
  · exact happ (fun n => n.used) (fun _ c _ _ => c)
      (fun n bs c t b => by simp [net_add]) (fun n hn => (hzero n hn).2.1)
  · exact happ (fun n => n.touched) (fun _ _ t _ => t)
      (fun n bs c t b => by simp [net_add]) (fun n hn => (hzero n hn).2.2.1)
  · exact happ (fun n => n.backups) (fun _ _ _ b => b)
      (fun n bs c t b => by simp [net_add]) (fun n hn => (hzero n hn).2.2.2)

/-- Witness for C3's amended theorem at a two network state (root plus
one shared network owning the single range). -/
theorem do_counting_root_totals_eq_sum_witness :
    (((do_counting ipcomp_v4 get_range_size_v4
        ⟨[⟨1, 167772160, 167772163, 0, 0, 0⟩],
         [⟨167772161, .ACTIVE⟩, ⟨167772162, .FREE⟩],
         [⟨"All networks", 0, 0, 0, 0⟩, ⟨"net1", 0, 0, 0, 0⟩]⟩).nets.getD 0
          default).available
      = (((do_counting ipcomp_v4 get_range_size_v4
        ⟨[⟨1, 167772160, 167772163, 0, 0, 0⟩],
         [⟨167772161, .ACTIVE⟩, ⟨167772162, .FREE⟩],
         [⟨"All networks", 0, 0, 0, 0⟩, ⟨"net1", 0, 0, 0, 0⟩]⟩).nets.drop 1).map
          (fun n => n.available)).sum) :=
  (do_counting_root_totals_eq_sum ipcomp_v4 get_range_size_v4
    ⟨[⟨1, 167772160, 167772163, 0, 0, 0⟩],
     [⟨167772161, .ACTIVE⟩, ⟨167772162, .FREE⟩],
     [⟨"All networks", 0, 0, 0, 0⟩, ⟨"net1", 0, 0, 0, 0⟩]⟩
    (by simp)
    (by
      intro r hr
      simp only [List.mem_singleton] at hr
      subst hr
      exact ⟨by decide, by simp⟩)
    (by
      intro n hn
      simp only [List.mem_cons, List.mem_singleton, List.not_mem_nil] at hn
      rcases hn with rfl | rfl | h
      · exact ⟨rfl, rfl, rfl, rfl⟩
      · exact ⟨rfl, rfl, rfl, rfl⟩
      · exact absurd h (by simp))).1

end DhcpdPools
